import Mathlib

/-!
# Verification of the arXiv paper ingestion-and-query layer

A shallow embedding, in Lean 4, of the ingestion/query core found in
`src/problem2` (`load_data.py`, `query_papers.py`, `api_server.py`):

* the term extractor (`WORD_RE`, `tokenize_keywords`),
* date normalization (`iso_date`),
* the projection planner (`build_items_for_paper`),
* the batch writer (`put_batch` via boto3's `BatchWriter`),
* the store/query model (DynamoDB overwrite-by-key puts, GSI partition
  queries, `BETWEEN` range conditions), and
* the HTTP route dispatch of `api_server.py`.

Python strings are embedded as `List Char`; Python `None` as `Option`.
External library behavior that the code relies on (boto3's `BatchWriter`
buffering, `collections.Counter.most_common`, DynamoDB's key-ordered store)
is modelled at its documented interface; everything else is translated
directly from the source.
-/

/-- Python strings, embedded as their character sequences. -/
abbrev Str := List Char

/-- Python `str(x)` / f-string rendering of an optional string: `None`
renders as the four characters `"None"`, as happens when a missing
`arxiv_id` is interpolated into a key. -/
def pyStr : Option Str → Str
  | some s => s
  | none => "None".data

/-- The fixed stop-word set `STOPWORDS` of `load_data.py`. -/
def STOPWORDS : List Str :=
  ["the".data, "a".data, "an".data, "and".data, "or".data, "but".data,
   "in".data, "on".data, "at".data, "to".data, "for".data, "of".data,
   "with".data, "by".data, "from".data, "up".data, "about".data,
   "into".data, "through".data, "during".data,
   "is".data, "are".data, "was".data, "were".data, "be".data, "been".data,
   "being".data, "have".data, "has".data, "had".data, "do".data,
   "does".data, "did".data, "will".data, "would".data, "could".data,
   "should".data, "may".data, "might".data,
   "can".data, "this".data, "that".data, "these".data, "those".data,
   "we".data, "our".data, "use".data, "using".data, "based".data,
   "approach".data, "method".data, "paper".data, "propose".data,
   "proposed".data, "show".data]

/-- A character matched by the tail class of
`WORD_RE = re.compile(r"[A-Za-z][A-Za-z0-9\-]+")`: ASCII letter, digit or
hyphen. -/
def isWordTail (c : Char) : Bool := c.isAlpha || c.isDigit || c == '-'

/-- Scanner state for `findWords`: `some (f, tl)` means a match is open,
begun at letter `f`, with the word-tail characters consumed so far held in
`tl` in reverse order; the match is emitted only if `tl` is nonempty (the
regex tail is `+`, so a lone letter is not a match). -/
def findWordsGo : Option (Char × Str) → Str → List Str
  | none, [] => []
  | some (f, tl), [] => if tl.isEmpty then [] else [f :: tl.reverse]
  | none, c :: rest =>
    if c.isAlpha then findWordsGo (some (c, [])) rest
    else findWordsGo none rest
  | some (f, tl), c :: rest =>
    if isWordTail c then findWordsGo (some (f, c :: tl)) rest
    else (if tl.isEmpty then [] else [f :: tl.reverse]) ++ findWordsGo none rest

/-- Embedding of `WORD_RE.findall(text)`: left-to-right, non-overlapping,
greedy matches of `[A-Za-z][A-Za-z0-9\-]+`.  A match begins at the first
unconsumed ASCII letter followed by at least one word-tail character and
extends through the maximal word-tail run after it.  (On a mismatch the
scanner resumes after the mismatching character, which is sound because a
character that closes a match is not a word-tail character, hence can
start no match.) -/
def findWords (text : Str) : List Str := findWordsGo none text

/-- Key insertion order of `collections.Counter(ws)`: the distinct words of
`ws`, each kept at its first occurrence. -/
def dedupFirstGo (seen : List Str) : List Str → List Str
  | [] => []
  | w :: ws =>
    if seen.contains w then dedupFirstGo seen ws
    else w :: dedupFirstGo (w :: seen) ws

/-- The distinct words of `ws` in first-occurrence order (the key order of
`collections.Counter(ws)`). -/
def dedupFirst (ws : List Str) : List Str := dedupFirstGo [] ws

/-- The sort key realising `Counter.most_common`: elements are
`(first-occurrence index, word)` pairs, ordered by strictly greater count
first, equal counts by smaller first-occurrence index.  `most_common` is a
stable descending sort over keys in insertion order, and since the indices
are distinct this relation is total and antisymmetric, so any sorted
rearrangement equals the stable one. -/
def keyLe (ws : List Str) (a b : Nat × Str) : Bool :=
  decide (ws.count b.2 < ws.count a.2) ||
    (ws.count a.2 == ws.count b.2 && decide (a.1 ≤ b.1))

/-- Embedding of `collections.Counter(ws).most_common(k)`. -/
def most_common (ws : List Str) (k : Nat) : List Str :=
  (((dedupFirst ws).enum.insertionSort (fun a b => keyLe ws a b = true)).map
    Prod.snd).take k

/-- The lowercased, stop-word- and length-filtered word list that
`tokenize_keywords` counts. -/
def filteredWords (text : Str) : List Str :=
  ((findWords text).map (fun w => w.map Char.toLower)).filter
    (fun w => !(STOPWORDS.contains w) && decide (3 ≤ w.length))

/-- Embedding of `tokenize_keywords(text, topk)` from `load_data.py`. -/
def tokenize_keywords (text : Str) (topk : Nat) : List Str :=
  if text = [] then []
  else most_common (filteredWords text) topk

/-- The guard of `iso_date`'s first branch: a 10-character string with `-`
at indices 4 and 7 (the code's notion of a date literal). -/
def isDateLiteral (s : Str) : Bool :=
  s.length == 10 && s.getD 4 ' ' == '-' && s.getD 7 ' ' == '-'

/-- `date_str.replace('Z','')`: every `'Z'` removed. -/
def stripZ (s : Str) : Str := s.filter (fun c => c != 'Z')

/-- Embedding of `iso_date(date_str)` from `load_data.py`, parameterised by
the external stdlib parser `parse`, which stands for the composite
`datetime.datetime.fromisoformat(·).date().isoformat()`: `some d` when
parsing succeeds with date component `d`, `none` when it raises.  The
`try/except` of the source is the `Option` match; the fallback keeps the
first 10 characters of the raw string. -/
def iso_date (parse : Str → Option Str) (date_str : Str) : Str :=
  if isDateLiteral date_str then date_str
  else
    match parse (stripZ date_str) with
    | some d => d
    | none => date_str.take 10

example : findWords "we propose graph learning".data =
    ["we".data, "propose".data, "graph".data, "learning".data] := by decide
example : findWords "3dmodeling a1".data = ["dmodeling".data, "a1".data] := by decide
example : tokenize_keywords "we propose a new method for graph learning".data 10 =
    ["new".data, "graph".data, "learning".data] := by decide
example : tokenize_keywords "b-b ccc b-b ddd ccc b-b".data 10 =
    ["b-b".data, "ccc".data, "ddd".data] := by decide
example : iso_date (fun _ => none) "2023-01-15".data = "2023-01-15".data := by decide
example : iso_date (fun _ => some "2023-01-15".data) "2023-01-15T10:30:00Z".data =
    "2023-01-15".data := by decide
example : iso_date (fun _ => none) "garbage-not-a-date".data = "garbage-no".data := by decide

/-- An input record as read from `papers.json`.  `none` models an absent
key (Python `dict.get(...)` returning `None`); the `or`-defaults of the
source are applied inside `build_items_for_paper`. -/
structure Paper where
  arxiv_id : Option Str
  title : Option Str
  authors : Option (List Str)
  abstract : Option Str
  categories : Option (List Str)
  published : Option Str
  keywords : Option (List Str)
deriving DecidableEq

/-- The denormalized payload `base_attrs` carried by every projection item
of one paper.  `arxiv_id` and `title` keep the raw optional values, exactly
as the Python dict stores `p.get(...)`. -/
structure BaseAttrs where
  arxiv_id : Option Str
  title : Option Str
  authors : List Str
  abstract : Str
  categories : List Str
  keywords : List Str
  published : Str
deriving DecidableEq

/-- One DynamoDB item: the main-table key `(PK, SK)`, the optional GSI key
attributes, and the denormalized payload attributes. -/
structure Item where
  PK : Str
  SK : Str
  GSI1PK : Option Str
  GSI1SK : Option Str
  GSI2PK : Option Str
  GSI2SK : Option Str
  GSI3PK : Option Str
  GSI3SK : Option Str
  payload : BaseAttrs
deriving DecidableEq

/-- The keyword list `build_items_for_paper` uses: the explicit
`p.get("keywords")` when it is a nonempty list (`if not keywords:` is the
falsy test, true for both `None` and `[]`), otherwise the term-extractor
output on the abstract with `topk=10`. -/
def effective_keywords (p : Paper) : List Str :=
  match p.keywords with
  | some ks => if ks = [] then tokenize_keywords (p.abstract.getD []) 10 else ks
  | none => tokenize_keywords (p.abstract.getD []) 10

/-- The `base_attrs` dict of `build_items_for_paper`: keywords lowercased,
`published` falling back to `date_only + "T00:00:00Z"` when the raw
`published` string is empty. -/
def base_attrs (parse : Str → Option Str) (p : Paper) : BaseAttrs :=
  let published_iso := p.published.getD []
  let date_only := iso_date parse published_iso
  { arxiv_id := p.arxiv_id
    title := p.title
    authors := p.authors.getD []
    abstract := p.abstract.getD []
    categories := p.categories.getD []
    keywords := (effective_keywords p).map (fun k => k.map Char.toLower)
    published := if published_iso = [] then date_only ++ "T00:00:00Z".data
                 else published_iso }

/-- The `date_only#arxiv_id` sort key shared by category, author and
keyword items. -/
def dateIdSK (parse : Str → Option Str) (p : Paper) : Str :=
  iso_date parse (p.published.getD []) ++ '#' :: pyStr p.arxiv_id

/-- The canonical paper item (`PAPER#<id>` / sort sentinel `"A"`, mirrored
into the `PaperIdIndex` GSI key attributes `GSI2PK`/`GSI2SK`). -/
def paper_item (parse : Str → Option Str) (p : Paper) : Item :=
  { PK := "PAPER#".data ++ pyStr p.arxiv_id
    SK := "A".data
    GSI1PK := none, GSI1SK := none
    GSI2PK := some ("PAPER#".data ++ pyStr p.arxiv_id)
    GSI2SK := some "A".data
    GSI3PK := none, GSI3SK := none
    payload := base_attrs parse p }

/-- A `CATEGORY#<cat>` item. -/
def category_item (parse : Str → Option Str) (p : Paper) (cat : Str) : Item :=
  { PK := "CATEGORY#".data ++ cat
    SK := dateIdSK parse p
    GSI1PK := none, GSI1SK := none, GSI2PK := none, GSI2SK := none
    GSI3PK := none, GSI3SK := none
    payload := base_attrs parse p }

/-- An `AUTHOR#<name>` item (mirrored into the `AuthorIndex` GSI keys). -/
def author_item (parse : Str → Option Str) (p : Paper) (a : Str) : Item :=
  { PK := "AUTHOR#".data ++ a
    SK := dateIdSK parse p
    GSI1PK := some ("AUTHOR#".data ++ a)
    GSI1SK := some (dateIdSK parse p)
    GSI2PK := none, GSI2SK := none, GSI3PK := none, GSI3SK := none
    payload := base_attrs parse p }

/-- A `KEYWORD#<kw>` item (mirrored into the `KeywordIndex` GSI keys). -/
def keyword_item (parse : Str → Option Str) (p : Paper) (kw : Str) : Item :=
  { PK := "KEYWORD#".data ++ kw
    SK := dateIdSK parse p
    GSI1PK := none, GSI1SK := none, GSI2PK := none, GSI2SK := none
    GSI3PK := some ("KEYWORD#".data ++ kw)
    GSI3SK := some (dateIdSK parse p)
    payload := base_attrs parse p }

/-- Embedding of `build_items_for_paper(p)` from `load_data.py`: the item
list in emission order (category items, the canonical item, author items,
keyword items) and the breakdown counts `(category, author, keyword,
paper)`. -/
def build_items_for_paper (parse : Str → Option Str) (p : Paper) :
    List Item × (Nat × Nat × Nat × Nat) :=
  let categories := p.categories.getD []
  let authors := p.authors.getD []
  let items :=
    categories.map (category_item parse p)
    ++ [paper_item parse p]
    ++ authors.map (author_item parse p)
    ++ ((base_attrs parse p).keywords).map (keyword_item parse p)
  (items,
   (categories.length, authors.length, (base_attrs parse p).keywords.length, 1))

/-- Two items collide on the main-table key `(PK, SK)`. -/
def sameKey (s it : Item) : Bool := s.PK == it.PK && s.SK == it.SK

/-- DynamoDB `put_item` overwrite semantics on the main-table key
`(PK, SK)`: a previous item with the same key (if any) is dropped and the
new item stored.  Within-partition ordering of the physical store is not
modelled; the queries below are membership-level filters. -/
def putItem (store : List Item) (it : Item) : List Item :=
  store.filter (fun s => !(sameKey s it)) ++ [it]

/-- Write a sequence of items left to right with overwrite-by-key
semantics. -/
def putAll (store : List Item) (items : List Item) : List Item :=
  items.foldl putItem store

/-- The net store contents after `main` of `load_data.py` ingests
`papers`: every emitted projection item is written, in emission order,
with overwrite-by-key semantics (the `BATCH_FLUSH` grouping and the
`BatchWriter` in-batch dedup change only which physical call carries an
item, not the net last-write-wins result). -/
def ingest (parse : Str → Option Str) (papers : List Paper) : List Item :=
  putAll [] ((papers.map (fun p => (build_items_for_paper parse p).1)).flatten)

/-- Embedding of `get_paper_by_id` from `query_papers.py`: query the
`PaperIdIndex` GSI for partition `PAPER#<arxiv_id>`, keep the first item if
any; the payload's `count` is 1 or 0 accordingly.  Returns
`(results head, count)`. -/
def get_paper_by_id (store : List Item) (arxiv_id : Str) : Option Item × Nat :=
  let items := store.filter
    (fun it => it.GSI2PK == some ("PAPER#".data ++ arxiv_id))
  match items.head? with
  | some it => (some it, 1)
  | none => (none, 0)

/-- Strict lexicographic comparison of key strings as character sequences
(DynamoDB orders string sort keys by their UTF-8 bytes, which on the ASCII
keys this schema produces is exactly per-character order). -/
def lexLt : Str → Str → Bool
  | [], [] => false
  | [], _ :: _ => true
  | _ :: _, [] => false
  | a :: as, b :: bs =>
    if a < b then true else if b < a then false else lexLt as bs

/-- `a ≤ b` in the store's sort-key order. -/
def lexLe (a b : Str) : Bool := !(lexLt b a)

/-- Embedding of `query_papers_in_date_range` from `query_papers.py`: key
condition `PK = CATEGORY#<category> AND SK BETWEEN '<start>#' AND
'<end>#zzzzzzz'` (DynamoDB `BETWEEN` is inclusive at both ends). -/
def query_papers_in_date_range (store : List Item)
    (category start_date end_date : Str) : List Item :=
  store.filter (fun it =>
    it.PK == "CATEGORY#".data ++ category &&
    lexLe (start_date ++ "#".data) it.SK &&
    lexLe it.SK (end_date ++ "#zzzzzzz".data))

example :
    (get_paper_by_id (ingest (fun _ => none)
      [{ arxiv_id := some "2301.00001".data, title := some "T".data,
         authors := some ["Alice Smith".data], abstract := none,
         categories := some ["cs.LG".data],
         published := some "2023-01-15".data,
         keywords := some ["graph".data] }]) "2301.00001".data).2 = 1 := by
  decide

/-- Structural worker for `flushAll`: the first argument is recursion gas.
Each flush removes at least one buffered item, so gas equal to the buffer
length always suffices and the gas-exhausted branch is never reached from
`flushAll`. -/
def flushAllGo (fa : Nat) : Nat → List Item → List (List Item)
  | _, [] => []
  | 0, l => [l.take (fa + 1)]
  | g + 1, l => l.take (fa + 1) :: flushAllGo fa g (l.drop (fa + 1))

/-- The final drain of boto3's `BatchWriter.__exit__`: flush the remaining
buffer in chunks of at most `fa + 1` items until it is empty (the writer is
always constructed with flush amount 25). -/
def flushAll (fa : Nat) (buf : List Item) : List (List Item) :=
  flushAllGo fa buf.length buf

/-- boto3's `BatchWriter` with `overwrite_by_pkeys=['PK','SK']`, as entered
by `put_batch`: each incoming item first evicts a buffered item with the
same `(PK, SK)` and is appended to the buffer; when the buffer reaches
`fa + 1` items, the first `fa + 1` are sent as one `BatchWriteItem` call;
on exit the remaining buffer is drained.  Returns the store-write calls
issued, in order. -/
def batchWriterCalls (fa : Nat) : List Item → List Item → List (List Item)
  | buf, [] => flushAll fa buf
  | buf, it :: rest =>
    let buf' := putItem buf it
    if fa + 1 ≤ buf'.length then
      (buf'.take (fa + 1)) :: batchWriterCalls fa (buf'.drop (fa + 1)) rest
    else batchWriterCalls fa buf' rest

/-- Embedding of `put_batch(table, items)` from `load_data.py`: write
`items` through a fresh `BatchWriter` whose flush ceiling is the DynamoDB
batch limit of 25. -/
def put_batch (items : List Item) : List (List Item) :=
  batchWriterCalls 24 [] items

/-- The per-entity loop of `main` in `load_data.py`, with its two fallible
steps left abstract: `build` stands for `build_items_for_paper` (which can
raise on malformed input) and `put` for `put_batch` (which can raise when
the store rejects a chunk, e.g. after boto3's internal retries are
exhausted).  Entities are projected one at a time into a buffer that is
flushed whenever it holds at least `BATCH_FLUSH = 24` items, with a final
flush of the remainder.  There is no `try/except` in the source loop, so an
error from either step propagates immediately: the result is the list of
chunks successfully written before the error, and the error itself if one
occurred — nothing after it is processed. -/
def mainLoop {E : Type} (build : Paper → Except E (List Item))
    (put : List Item → Except E Unit) :
    List Paper → List Item → List (List Item) × Option E
  | [], batch =>
    if batch.isEmpty then ([], none)
    else match put batch with
      | .ok _ => ([batch], none)
      | .error e => ([], some e)
  | p :: ps, batch =>
    match build p with
    | .error e => ([], some e)
    | .ok items =>
      let batch' := batch ++ items
      if 24 ≤ batch'.length then
        match put batch' with
        | .error e => ([], some e)
        | .ok _ =>
          let r := mainLoop build put ps []
          (batch' :: r.1, r.2)
      else mainLoop build put ps batch'

/-- Embedding of the ingestion run of `main` (`load_data.py`): start with
an empty buffer. -/
def mainRun {E : Type} (build : Paper → Except E (List Item))
    (put : List Item → Except E Unit) (papers : List Paper) :
    List (List Item) × Option E :=
  mainLoop build put papers []

/-- The routes `Handler.do_GET` of `api_server.py` can take. -/
inductive Route where
  | recent
  | author (name : Str)
  | keyword (kw : Str)
  | byId (arxiv_id : Str)
  | search
  | notFound
deriving DecidableEq

/-- `True` exactly on the date-range branch. -/
def Route.isSearch : Route → Bool
  | .search => true
  | _ => false

/-- `path.rstrip("/")`: trailing slashes removed. -/
def rstripSlash (s : Str) : Str :=
  (s.reverse.dropWhile (fun c => c == '/')).reverse

/-- The branch structure of `Handler.do_GET` (`api_server.py`), applied to
the already-`rstrip`ped path, with the guards in source order:
`/papers/recent` (exact), `/papers/author/` (prefix), `/papers/keyword/`
(prefix), the by-id branch (`/papers/` prefix and exactly two `/`), then
`/papers/search` (exact), else 404. -/
def dispatch (path : Str) : Route :=
  if path = "/papers/recent".data then .recent
  else if "/papers/author/".data.isPrefixOf path then
    .author (path.drop "/papers/author/".data.length)
  else if "/papers/keyword/".data.isPrefixOf path then
    .keyword (path.drop "/papers/keyword/".data.length)
  else if "/papers/".data.isPrefixOf path ∧ path.count '/' = 2 then
    .byId (path.drop "/papers/".data.length)
  else if path = "/papers/search".data then .search
  else .notFound

/-- The route taken by `Handler.do_GET` for a raw request path. -/
def route (rawPath : Str) : Route := dispatch (rstripSlash rawPath)

example : route "/papers/search".data = Route.byId "search".data := by decide
example : route "/papers/2301.00001".data = Route.byId "2301.00001".data := by decide
example : route "/papers/recent".data = Route.recent := by decide
example : route "/papers/author/Alice".data = Route.author "Alice".data := by decide
example : (put_batch []).length = 0 := by decide

/-! ## C2 — projection planner fan-out -/

/-- C2: for every input paper, `build_items_for_paper` emits exactly one
canonical item plus one item per category, per author and per keyword (the
explicit keyword list when supplied and non-empty, otherwise the term
extractor's output on the abstract), each carrying the full denormalized
payload; empty categories/authors/keywords contribute zero items of that
kind, so the item count is `1 + |categories| + |authors| + |keywords|`,
and the reported breakdown matches. -/
theorem build_items_fanout (parse : Str → Option Str) (p : Paper) :
    (build_items_for_paper parse p).1.length =
      1 + (p.categories.getD []).length + (p.authors.getD []).length +
        (effective_keywords p).length ∧
    (∀ it ∈ (build_items_for_paper parse p).1,
      it.payload = base_attrs parse p) ∧
    (build_items_for_paper parse p).2 =
      ((p.categories.getD []).length, (p.authors.getD []).length,
        (effective_keywords p).length, 1) := by
  refine ⟨?_, ?_, ?_⟩
  · simp only [build_items_for_paper, List.length_append, List.length_map,
      List.length_cons, List.length_nil, base_attrs]
    omega
  · intro it hit
    simp only [build_items_for_paper, List.mem_append, List.mem_map,
      List.mem_cons, List.mem_singleton, List.not_mem_nil, or_false] at hit
    rcases hit with ((⟨c, _, rfl⟩ | rfl) | ⟨a, _, rfl⟩) | ⟨k, _, rfl⟩ <;> rfl
  · simp only [build_items_for_paper, base_attrs, List.length_map]

/-! ## C6 — date normalization -/

/-- C6: `iso_date` returns a 10-character date literal (length 10 with `-`
at positions 4 and 7) unchanged; otherwise it strips `'Z'`s and hands the
string to the timestamp parser, returning the parsed date component on
success; exactly when parsing fails it returns the first 10 characters of
the raw string.  The function is total (the `try/except` of the source
never lets an error escape). -/
theorem iso_date_branches (parse : Str → Option Str) (s : Str) :
    (isDateLiteral s = true → iso_date parse s = s) ∧
    (isDateLiteral s = false →
      iso_date parse s = (parse (stripZ s)).getD (s.take 10)) ∧
    (isDateLiteral s = false → parse (stripZ s) = none →
      iso_date parse s = s.take 10) := by
  refine ⟨fun h => by simp [iso_date, h], fun h => ?_, fun h h2 => by simp [iso_date, h, h2]⟩
  cases hp : parse (stripZ s) <;> simp [iso_date, h, hp]

/-! ## C7 — missing entity id -/

/-- A record with no `arxiv_id` (and nothing else either). -/
def paperNoId : Paper :=
  { arxiv_id := none, title := none, authors := none, abstract := none,
    categories := none, published := none, keywords := none }

/-- C7 counterexample: the claim says a record with a missing entity id is
rejected before any storage keys are produced.  In the code there is no
such check: `build_items_for_paper` on a record with `arxiv_id = None`
still emits its canonical item, whose partition key embeds the rendered
id `PAPER#None`. -/
theorem missing_id_not_rejected :
    paperNoId.arxiv_id = none ∧
    (build_items_for_paper (fun _ => none) paperNoId).1 ≠ [] ∧
    ∃ it ∈ (build_items_for_paper (fun _ => none) paperNoId).1,
      it.PK = "PAPER#None".data := by decide

/-- C7 amended: ingestion never rejects a record whose entity id is
missing; `build_items_for_paper` emits the full fan-out regardless, with
the missing id rendered as the literal string `None` inside the canonical
partition key (and the canonical item is among the emitted items). -/
theorem missing_id_items_emitted (parse : Str → Option Str) (p : Paper)
    (h : p.arxiv_id = none) :
    paper_item parse p ∈ (build_items_for_paper parse p).1 ∧
    (paper_item parse p).PK = "PAPER#None".data ∧
    (build_items_for_paper parse p).1.length =
      1 + (p.categories.getD []).length + (p.authors.getD []).length +
        (effective_keywords p).length := by
  refine ⟨?_, ?_, ?_⟩
  · simp [build_items_for_paper]
  · simp only [paper_item, pyStr, h]
    decide
  · simp only [build_items_for_paper, List.length_append, List.length_map,
      List.length_cons, List.length_nil, base_attrs]
    omega

/-- C7 amended, at a concrete input: the record with every field missing
is not rejected; its canonical item is emitted under `PAPER#None`. -/
theorem missing_id_items_emitted_witness :
    paperNoId.arxiv_id = none ∧
    paper_item (fun _ => none) paperNoId ∈
      (build_items_for_paper (fun _ => none) paperNoId).1 ∧
    (paper_item (fun _ => none) paperNoId).PK = "PAPER#None".data :=
  ⟨rfl, (missing_id_items_emitted (fun _ => none) paperNoId rfl).1,
    (missing_id_items_emitted (fun _ => none) paperNoId rfl).2.1⟩

/-! ## C10 — `/papers/search` is shadowed by the by-id branch -/

/-- Helper: no path at all reaches the `/papers/search` branch of
`Handler.do_GET`, because its guard `path == "/papers/search"` implies the
earlier by-id guard (`/papers/` prefix with exactly two slashes). -/
theorem dispatch_not_search (q : Str) : (dispatch q).isSearch = false := by
  unfold dispatch
  repeat' split
  any_goals rfl
  rename_i h4 h5
  subst h5
  exact absurd (by decide) h4

/-- C10: a GET for `/papers/search` is routed to the by-id branch (a
`PaperIdIndex` lookup for the literal id `search`), and the date-range
branch guarded by `path == "/papers/search"` is unreachable for every
request path: no request can ever return a date-range result envelope from
`/papers/search`. -/
theorem papers_search_shadowed :
    route "/papers/search".data = Route.byId "search".data ∧
    ∀ rawPath : Str, (route rawPath).isSearch = false :=
  ⟨by decide, fun rawPath => dispatch_not_search (rstripSlash rawPath)⟩

/-! ## C4 — batch sizing -/

/-- Gas does not matter once it covers the buffer length. -/
theorem flushAllGo_gas_irrel (fa : Nat) :
    ∀ g g' (l : List Item), l.length ≤ g → l.length ≤ g' →
      flushAllGo fa g l = flushAllGo fa g' l := by
  intro g
  induction g with
  | zero =>
    intro g' l hg _
    have : l = [] := List.eq_nil_of_length_eq_zero (Nat.le_zero.mp hg)
    subst this
    cases g' <;> rfl
  | succ g ih =>
    intro g' l hg hg'
    cases l with
    | nil => cases g' <;> rfl
    | cons b bs =>
      have hg'pos : 0 < g' := by
        have := hg'
        simp only [List.length_cons] at this
        omega
      obtain ⟨g'', rfl⟩ : ∃ g'', g' = g'' + 1 := ⟨g' - 1, by omega⟩
      simp only [flushAllGo]
      congr 1
      apply ih
      · simp only [List.length_drop, List.length_cons] at *
        omega
      · simp only [List.length_drop, List.length_cons] at *
        omega

/-- Unfolding `flushAll` on a nonempty buffer. -/
theorem flushAll_cons (fa : Nat) (b : Item) (bs : List Item) :
    flushAll fa (b :: bs) =
      (b :: bs).take (fa + 1) :: flushAll fa ((b :: bs).drop (fa + 1)) := by
  simp only [flushAll, List.length_cons, flushAllGo]
  congr 1
  apply flushAllGo_gas_irrel
  · simp only [List.length_drop, List.length_cons]
    omega
  · exact Nat.le_refl _

/-- Every chunk the final drain emits respects the flush ceiling. -/
theorem flushAllGo_le (fa : Nat) :
    ∀ g (l : List Item), ∀ c ∈ flushAllGo fa g l, c.length ≤ fa + 1 := by
  intro g
  induction g with
  | zero =>
    intro l c hc
    cases l with
    | nil => simp [flushAllGo] at hc
    | cons b bs =>
      simp only [flushAllGo, List.mem_singleton] at hc
      subst hc
      exact List.length_take_le _ _
  | succ g ih =>
    intro l c hc
    cases l with
    | nil => simp [flushAllGo] at hc
    | cons b bs =>
      simp only [flushAllGo, List.mem_cons] at hc
      rcases hc with rfl | hc
      · exact List.length_take_le _ _
      · exact ih _ c hc

/-- Every store-write call the batch writer issues respects the flush
ceiling. -/
theorem batchWriterCalls_le (fa : Nat) :
    ∀ (items buf : List Item), ∀ c ∈ batchWriterCalls fa buf items,
      c.length ≤ fa + 1 := by
  intro items
  induction items with
  | nil =>
    intro buf c hc
    exact flushAllGo_le fa _ _ c hc
  | cons it rest ih =>
    intro buf c hc
    simp only [batchWriterCalls] at hc
    split at hc
    · rcases List.mem_cons.mp hc with rfl | hc
      · exact List.length_take_le _ _
      · exact ih _ c hc
    · exact ih _ c hc

/-- The main-table key of an item. -/
def itemKey (it : Item) : Str × Str := (it.PK, it.SK)

/-- `sameKey` decides equality of `itemKey`. -/
theorem sameKey_eq_true_iff (s it : Item) :
    sameKey s it = true ↔ itemKey s = itemKey it := by
  simp [sameKey, itemKey, Prod.ext_iff]

/-- Putting an item whose key is fresh for the buffer appends it. -/
theorem putItem_fresh (buf : List Item) (it : Item)
    (h : ∀ s ∈ buf, itemKey s ≠ itemKey it) :
    putItem buf it = buf ++ [it] := by
  unfold putItem
  congr 1
  rw [List.filter_eq_self]
  intro s hs
  simp only [Bool.not_eq_true', ← Bool.not_eq_true (sameKey s it)]
  intro hk
  exact h s hs (sameKey_eq_true_iff s it |>.mp hk)

/-- A full first chunk splits off the front of the drain. -/
theorem flushAll_append (fa : Nat) (l₁ l₂ : List Item)
    (h : l₁.length = fa + 1) :
    flushAll fa (l₁ ++ l₂) = l₁ :: flushAll fa l₂ := by
  cases l₁ with
  | nil => simp at h
  | cons a as =>
    rw [List.cons_append, flushAll_cons, ← List.cons_append, ← h,
      List.take_left, List.drop_left]

/-- On key-distinct input the batch writer degrades to pure chunking of the
incoming sequence. -/
theorem batchWriterCalls_eq_flushAll (fa : Nat) :
    ∀ (items buf : List Item), buf.length ≤ fa →
      ((buf ++ items).map itemKey).Nodup →
      batchWriterCalls fa buf items = flushAll fa (buf ++ items) := by
  intro items
  induction items with
  | nil =>
    intro buf _ _
    simp [batchWriterCalls]
  | cons it rest ih =>
    intro buf hlen hnd
    have hfresh : ∀ s ∈ buf, itemKey s ≠ itemKey it := by
      intro s hs he
      have hd := (List.nodup_append.mp (by simpa using hnd)).2.2
      exact hd (List.mem_map_of_mem itemKey hs) (by rw [he]; simp)
    have hput : putItem buf it = buf ++ [it] := putItem_fresh buf it hfresh
    have hassoc : (buf ++ [it]) ++ rest = buf ++ it :: rest := by simp
    simp only [batchWriterCalls, hput]
    split
    · rename_i hfull
      have hlen' : (buf ++ [it]).length = fa + 1 := by
        simp only [List.length_append, List.length_singleton] at hfull ⊢
        omega
      have hndrest : ((([] : List Item) ++ rest).map itemKey).Nodup := by
        simp only [List.nil_append]
        refine List.Sublist.nodup (List.Sublist.map itemKey ?_) hnd
        exact ((List.sublist_cons_self it rest).trans
          (List.sublist_append_right buf (it :: rest)))
      rw [List.take_of_length_le (le_of_eq hlen'),
        List.drop_eq_nil_of_le (le_of_eq hlen'),
        ih [] (by simp) hndrest, ← hassoc, flushAll_append fa _ _ hlen']
      simp
    · rename_i hnotfull
      have hlen' : (buf ++ [it]).length ≤ fa := by
        simp only [Nat.not_le, List.length_append, List.length_singleton]
          at hnotfull ⊢
        omega
      rw [ih (buf ++ [it]) hlen' (by rw [hassoc]; exact hnd), hassoc]

/-- Draining a 51-item buffer under ceiling 25 yields chunks of sizes
25, 25 and 1. -/
theorem flushAll_lengths_51 (l : List Item) (h : l.length = 51) :
    (flushAll 24 l).map List.length = [25, 25, 1] := by
  obtain ⟨a, as, rfl⟩ : ∃ a as, l = a :: as := by
    cases l with
    | nil => simp at h
    | cons a as => exact ⟨a, as, rfl⟩
  rw [flushAll_cons]
  have h1 : ((a :: as).drop 25).length = 26 := by
    rw [List.length_drop, h]
  obtain ⟨b, bs, hb⟩ : ∃ b bs, (a :: as).drop 25 = b :: bs := by
    cases hdrop : (a :: as).drop 25 with
    | nil => rw [hdrop] at h1; simp at h1
    | cons b bs => exact ⟨b, bs, rfl⟩
  rw [hb] at h1 ⊢
  rw [flushAll_cons]
  have h2 : ((b :: bs).drop 25).length = 1 := by
    rw [List.length_drop, h1]
  obtain ⟨c, cs, hc⟩ : ∃ c cs, (b :: bs).drop 25 = c :: cs := by
    cases hdrop : (b :: bs).drop 25 with
    | nil => rw [hdrop] at h2; simp at h2
    | cons c cs => exact ⟨c, cs, rfl⟩
  rw [hc] at h2 ⊢
  rw [flushAll_cons]
  have h3 : ((c :: cs).drop 25).length = 0 := by
    rw [List.length_drop, h2]
  have hnil : (c :: cs).drop 25 = [] := List.eq_nil_of_length_eq_zero h3
  rw [hnil]
  simp only [flushAll, List.length_nil, flushAllGo, List.map_cons,
    List.map_nil, List.length_take]
  rw [h, h1, h2]
  decide

/-- C4: the batch writer never hands the store a batch above the ceiling of
25 items, and on any 51 key-distinct projection items it issues exactly
three store-write calls of sizes 25, 25 and 1. -/
theorem put_batch_batching :
    (∀ items : List Item, ∀ c ∈ put_batch items, c.length ≤ 25) ∧
    ∀ items : List Item, (items.map itemKey).Nodup → items.length = 51 →
      (put_batch items).map List.length = [25, 25, 1] := by
  constructor
  · intro items c hc
    exact batchWriterCalls_le 24 items [] c hc
  · intro items hnd hlen
    unfold put_batch
    rw [batchWriterCalls_eq_flushAll 24 items [] (by simp) (by simpa using hnd)]
    exact flushAll_lengths_51 items hlen

/-- The empty payload, for concrete test items. -/
def emptyAttrs : BaseAttrs :=
  { arxiv_id := none, title := none, authors := [], abstract := [],
    categories := [], keywords := [], published := [] }

/-- 51 projection items with pairwise distinct `(PK, SK)` keys. -/
def items51 : List Item :=
  (List.range 51).map (fun i =>
    { PK := List.replicate i 'x', SK := "A".data,
      GSI1PK := none, GSI1SK := none, GSI2PK := none, GSI2SK := none,
      GSI3PK := none, GSI3SK := none, payload := emptyAttrs })

/-- C4 at a concrete input: `put_batch` on 51 key-distinct items issues
calls of sizes 25, 25, 1, and each is within the ceiling. -/
theorem put_batch_batching_witness :
    (put_batch items51).map List.length = [25, 25, 1] ∧
    ∀ c ∈ put_batch items51, c.length ≤ 25 :=
  ⟨put_batch_batching.2 items51 (by decide) (by decide),
    fun c hc => put_batch_batching.1 items51 c hc⟩

/-! ## C3 — inclusive date-range query -/

/-- Nothing is strictly below the empty key. -/
theorem lexLt_nil_right (a : Str) : lexLt a [] = false := by
  cases a <;> rfl

/-- Strict key order is asymmetric. -/
theorem lexLt_asymm : ∀ a b : Str, lexLt a b = true → lexLt b a = false := by
  intro a
  induction a with
  | nil =>
    intro b _
    exact lexLt_nil_right b
  | cons x xs ih =>
    intro b hab
    cases b with
    | nil => simp [lexLt] at hab
    | cons y ys =>
      simp only [lexLt] at hab ⊢
      by_cases hxy : x < y
      · have : ¬ y < x := lt_asymm hxy
        simp [hxy, this]
      · by_cases hyx : y < x
        · simp [hxy, hyx] at hab
        · simp only [hxy, hyx, if_false] at hab ⊢
          exact ih ys hab

/-- Keys of equal length that are mutually not-below are equal. -/
theorem lexLt_antisymm : ∀ a b : Str, a.length = b.length →
    lexLt a b = false → lexLt b a = false → a = b := by
  intro a
  induction a with
  | nil =>
    intro b hlen _ _
    cases b with
    | nil => rfl
    | cons y ys => simp at hlen
  | cons x xs ih =>
    intro b hlen hab hba
    cases b with
    | nil => simp at hlen
    | cons y ys =>
      simp only [lexLt] at hab hba
      by_cases hxy : x < y
      · simp [hxy] at hab
      · by_cases hyx : y < x
        · simp [hxy, hyx] at hba
        · have hx : x = y := le_antisymm (not_lt.mp hyx) (not_lt.mp hxy)
          simp only [hxy, hyx, if_false] at hab hba
          have := ih ys (by simpa using hlen) hab hba
          rw [hx, this]

/-- Strict order at equal lengths is unaffected by appended suffixes. -/
theorem lexLt_append_of_lt : ∀ a b : Str, a.length = b.length →
    lexLt a b = true → ∀ x y : Str, lexLt (a ++ x) (b ++ y) = true := by
  intro a
  induction a with
  | nil =>
    intro b hlen hab
    cases b with
    | nil => simp [lexLt] at hab
    | cons y ys => simp at hlen
  | cons c cs ih =>
    intro b hlen hab x y
    cases b with
    | nil => simp at hlen
    | cons d ds =>
      simp only [lexLt, List.cons_append] at hab ⊢
      by_cases hcd : c < d
      · simp [hcd]
      · by_cases hdc : d < c
        · simp [hcd, hdc] at hab
        · simp only [hcd, hdc, if_false] at hab ⊢
          exact ih ds (by simpa using hlen) hab x y

/-- Strict order below a shared prefix reduces to the suffixes. -/
theorem lexLt_append_same : ∀ a x y : Str,
    lexLt (a ++ x) (a ++ y) = lexLt x y := by
  intro a
  induction a with
  | nil => intro x y; rfl
  | cons c cs ih =>
    intro x y
    simp only [List.cons_append, lexLt, lt_irrefl, if_false]
    exact ih x y

/-- The `BETWEEN` bound comparison at equal-length prefixes reduces to the
prefixes whenever the right suffix is not strictly below the left one. -/
theorem lexLe_append_sep (a b x y : Str) (hlen : a.length = b.length)
    (hxy : lexLt y x = false) : lexLe (a ++ x) (b ++ y) = lexLe a b := by
  unfold lexLe
  congr 1
  by_cases hba : lexLt b a = true
  · rw [hba, lexLt_append_of_lt b a hlen.symm hba y x]
  · rw [Bool.not_eq_true] at hba
    rw [hba]
    by_cases hab : lexLt a b = true
    · rw [lexLt_asymm _ _ (lexLt_append_of_lt a b hlen hab x y)]
    · rw [Bool.not_eq_true] at hab
      have : a = b := lexLt_antisymm a b hlen hab hba
      subst this
      rw [lexLt_append_same a y x, hxy]

/-- C3: for any category and any equal-width (10-character) boundary dates,
an item of the store whose sort key is `<date>#<id>` with a 10-character
date and an id suffix lexically below the `zzzzzzz` high sentinel is
returned by `query_papers_in_date_range` exactly when it is stored, lies in
that category partition, and its date component is in the inclusive range
`[start, end]` — so both boundary dates are included and nothing outside
the range is returned. -/
theorem date_range_inclusive (store : List Item)
    (category start_date end_date : Str) (it : Item) (d id : Str)
    (hSK : it.SK = d ++ '#' :: id)
    (hd : d.length = 10) (hs : start_date.length = 10)
    (he : end_date.length = 10)
    (hid : lexLt id "zzzzzzz".data = true) :
    it ∈ query_papers_in_date_range store category start_date end_date ↔
      it ∈ store ∧ it.PK = "CATEGORY#".data ++ category ∧
        lexLe start_date d = true ∧ lexLe d end_date = true := by
  unfold query_papers_in_date_range
  rw [List.mem_filter]
  have h1 : lexLe (start_date ++ "#".data) it.SK = lexLe start_date d := by
    rw [hSK]
    have : d ++ '#' :: id = d ++ ('#' :: id) := rfl
    rw [this]
    exact lexLe_append_sep start_date d "#".data ('#' :: id)
      (by rw [hs, hd])
      (by simpa [lexLt] using lexLt_nil_right id)
  have h2 : lexLe it.SK (end_date ++ "#zzzzzzz".data) = lexLe d end_date := by
    rw [hSK]
    have hz : ("#zzzzzzz".data : Str) = '#' :: "zzzzzzz".data := rfl
    rw [hz]
    exact lexLe_append_sep d end_date ('#' :: id) ('#' :: "zzzzzzz".data)
      (by rw [hd, he])
      (by simpa [lexLt] using lexLt_asymm id "zzzzzzz".data hid)
  constructor
  · rintro ⟨hmem, hcond⟩
    simp only [Bool.and_eq_true, beq_iff_eq] at hcond
    exact ⟨hmem, hcond.1.1, by rw [← h1]; exact hcond.1.2, by rw [← h2]; exact hcond.2⟩
  · rintro ⟨hmem, hPK, hge, hle⟩
    refine ⟨hmem, ?_⟩
    simp only [Bool.and_eq_true, beq_iff_eq]
    exact ⟨⟨hPK, by rw [h1]; exact hge⟩, by rw [h2]; exact hle⟩

/-- A concrete stored category item dated 2023-01-15. -/
def itJan15 : Item :=
  { PK := "CATEGORY#cs.LG".data, SK := "2023-01-15#2301.00001".data,
    GSI1PK := none, GSI1SK := none, GSI2PK := none, GSI2SK := none,
    GSI3PK := none, GSI3SK := none, payload := emptyAttrs }

/-- C3 at a concrete input: the boundary-start item of January 2023 is
returned by the January range query, and is indeed in range. -/
theorem date_range_inclusive_witness :
    itJan15 ∈ query_papers_in_date_range [itJan15] "cs.LG".data
      "2023-01-15".data "2023-01-31".data ∧
    itJan15 ∈ [itJan15] ∧ itJan15.PK = "CATEGORY#".data ++ "cs.LG".data ∧
      lexLe "2023-01-15".data "2023-01-15".data = true ∧
      lexLe "2023-01-15".data "2023-01-31".data = true :=
  have h := date_range_inclusive [itJan15] "cs.LG".data "2023-01-15".data
    "2023-01-31".data itJan15 "2023-01-15".data "2301.00001".data
    (by decide) (by decide) (by decide) (by decide) (by decide)
  ⟨h.mpr ⟨by decide, by decide, by decide, by decide⟩,
    by decide, by decide, by decide, by decide⟩

/-! ## C9 — tokenization of digit-started runs -/

/-- Worker for `maximalRuns`; `acc` holds the current run reversed. -/
def maximalRunsGo : Str → Str → List Str
  | acc, [] => if acc.isEmpty then [] else [acc.reverse]
  | acc, c :: rest =>
    if isWordTail c then maximalRunsGo (c :: acc) rest
    else (if acc.isEmpty then [] else [acc.reverse]) ++ maximalRunsGo [] rest

/-- The maximal runs of letters/digits/hyphen characters of a text, in
order. -/
def maximalRuns (t : Str) : List Str := maximalRunsGo [] t

/-- Modelled from the spec's words (the claim's reading of the
tokenization): the tokens are exactly the maximal runs of
letters/digits/hyphen that START with a letter, so a run whose first
character is a digit contributes nothing.  This is the claim's candidate
semantics, compared below against `findWords`, the embedding of the
code's `WORD_RE.findall`. -/
def specTokens (t : Str) : List Str :=
  (maximalRuns t).filter (fun r =>
    match r.head? with
    | some c => c.isAlpha
    | none => false)

/-- C9 counterexample: in `"0abc"` the unique maximal letters/digits/hyphen
run is `0abc`, which starts with a digit, so under the claim no token is
considered (`specTokens` is empty); but the code's scanner produces the
proper suffix `abc` of that run, and the term extractor returns it. -/
theorem digit_run_suffix_token_cex :
    maximalRuns "0abc".data = ["0abc".data] ∧
    specTokens "0abc".data = [] ∧
    findWords "0abc".data = ["abc".data] ∧
    findWords "0abc".data ≠ specTokens "0abc".data ∧
    tokenize_keywords "0abc".data 10 = ["abc".data] := by decide

/-- A digit is not a letter. -/
theorem isAlpha_false_of_isDigit (c : Char) (h : c.isDigit = true) :
    c.isAlpha = false := by
  simp only [Char.isDigit, Bool.and_eq_true, decide_eq_true_iff] at h
  have h2 : c.val.toBitVec.toNat ≤ 57 := by
    have := h.2
    rw [UInt32.le_def, BitVec.le_def] at this
    simpa using this
  simp only [Char.isAlpha, Char.isUpper, Char.isLower, Bool.or_eq_false_iff,
    Bool.and_eq_false_iff, decide_eq_false_iff_not]
  constructor
  · left
    intro hc
    rw [ge_iff_le, UInt32.le_def, BitVec.le_def] at hc
    have e1 : (65 : UInt32).toBitVec.toNat = 65 := rfl
    rw [e1] at hc
    omega
  · left
    intro hc
    rw [ge_iff_le, UInt32.le_def, BitVec.le_def] at hc
    have e1 : (97 : UInt32).toBitVec.toNat = 97 := rfl
    rw [e1] at hc
    omega

/-- Inside an all-word-tail suffix an open match swallows everything and is
emitted whole. -/
theorem findWordsGo_all_wordtail : ∀ cs : Str,
    (∀ x ∈ cs, isWordTail x = true) → ∀ (f : Char) (tl : Str),
      tl ≠ [] ∨ cs ≠ [] →
      findWordsGo (some (f, tl)) cs = [f :: (tl.reverse ++ cs)] := by
  intro cs
  induction cs with
  | nil =>
    intro _ f tl hne
    have htl : tl ≠ [] := by
      rcases hne with h | h
      · exact h
      · exact absurd rfl h
    simp only [findWordsGo, List.isEmpty_eq_true, htl, if_false,
      List.append_nil]
  | cons c cs' ih =>
    intro hall f tl _
    simp only [findWordsGo, hall c (List.mem_cons_self c cs'), if_true]
    rw [ih (fun x hx => hall x (List.mem_cons_of_mem c hx)) f (c :: tl)
      (Or.inl (List.cons_ne_nil c tl))]
    simp [List.reverse_cons, List.append_assoc]

/-- An all-word-tail suffix extends the current run to the end of the
text, emitted as one maximal run. -/
theorem maximalRunsGo_all_wordtail : ∀ l : Str,
    (∀ x ∈ l, isWordTail x = true) → ∀ acc : Str, acc ≠ [] ∨ l ≠ [] →
      maximalRunsGo acc l = [acc.reverse ++ l] := by
  intro l
  induction l with
  | nil =>
    intro _ acc hne
    have hacc : acc ≠ [] := by
      rcases hne with h | h
      · exact h
      · exact absurd rfl h
    simp only [maximalRunsGo, List.isEmpty_eq_true, hacc, if_false,
      List.append_nil]
  | cons c l' ih =>
    intro hall acc _
    simp only [maximalRunsGo, hall c (List.mem_cons_self c l'), if_true]
    rw [ih (fun x hx => hall x (List.mem_cons_of_mem c hx)) (c :: acc)
      (Or.inl (List.cons_ne_nil c acc))]
    simp [List.reverse_cons, List.append_assoc]

/-- C9 amended: a maximal letters/digits/hyphen run that starts with a
digit DOES contribute a token — `WORD_RE.findall` skips the leading digits
and matches from the run's first letter, so the token considered is the
proper suffix of the run beginning at that letter (here for a run that is
the whole text: one leading digit, then a letter, then at least one more
word-tail character). -/
theorem digit_started_run_yields_suffix (d c : Char) (cs : Str)
    (hd : d.isDigit = true) (hc : c.isAlpha = true)
    (hcs : ∀ x ∈ cs, isWordTail x = true) (hne : cs ≠ []) :
    maximalRuns (d :: c :: cs) = [d :: c :: cs] ∧
    findWords (d :: c :: cs) = [c :: cs] := by
  constructor
  · unfold maximalRuns
    have hwt : isWordTail d = true := by
      simp [isWordTail, hd]
    have hwc : isWordTail c = true := by simp [isWordTail, hc]
    simp only [maximalRunsGo, hwt, if_true, hwc]
    rw [maximalRunsGo_all_wordtail cs hcs [c, d] (Or.inl (by simp))]
    rfl
  · unfold findWords
    have hda : d.isAlpha = false := isAlpha_false_of_isDigit d hd
    simp only [findWordsGo, hda, Bool.false_eq_true, if_false, hc, if_true]
    rw [findWordsGo_all_wordtail cs hcs c [] (Or.inr hne)]
    rfl

/-- C9 amended, at a concrete input: the run `0abc` starts with a digit and
yields the token `abc`, its suffix from the first letter. -/
theorem digit_started_run_yields_suffix_witness :
    maximalRuns ('0' :: 'a' :: "bc".data) = ['0' :: 'a' :: "bc".data] ∧
    findWords ('0' :: 'a' :: "bc".data) = ['a' :: "bc".data] :=
  digit_started_run_yields_suffix '0' 'a' "bc".data (by decide) (by decide)
    (by decide) (by decide)

/-! ## C8 — error propagation during ingestion -/

/-- A minimal good record. -/
def pg1 : Paper :=
  { arxiv_id := some "g1".data, title := none, authors := none,
    abstract := none, categories := none, published := none,
    keywords := none }

/-- The record the failing builder rejects. -/
def pbad : Paper :=
  { arxiv_id := some "bad".data, title := none, authors := none,
    abstract := none, categories := none, published := none,
    keywords := none }

/-- A second good record, after the bad one. -/
def pg2 : Paper :=
  { arxiv_id := some "g2".data, title := none, authors := none,
    abstract := none, categories := none, published := none,
    keywords := none }

/-- A builder that raises (only) on the record with id `bad`, standing for
a per-entity extraction/key-codec error. -/
def badBuild : Paper → Except Nat (List Item) := fun p =>
  if p.arxiv_id = some "bad".data then .error 7
  else .ok [paper_item (fun _ => none) p]

/-- A store that accepts every chunk. -/
def okPut : List Item → Except Nat Unit := fun _ => .ok ()

/-- A store that rejects every chunk, standing for a chunk whose writes
exhaust boto3's internal retries. -/
def failPut : List Item → Except Nat Unit := fun _ => .error 9

/-- A builder that emits 51 items per record, forcing a flush. -/
def bigBuild : Paper → Except Nat (List Item) := fun _ => .ok items51

/-- C8 counterexample: the claim says a single bad record or failed chunk
never aborts the run (errors caught, logged, entity skipped, processing
continuing).  The loop of `main` has no `try/except`: with one bad record
among three the whole run stops at it with nothing written and the record
after it never processed, and a single failed chunk write likewise aborts
the remainder of the run. -/
theorem single_bad_record_aborts :
    mainRun badBuild okPut [pg1, pbad, pg2] = ([], some 7) ∧
    mainRun bigBuild failPut [pg1, pg2] = ([], some 9) := by decide

/-- C8 amended: per-entity build errors and chunk-write failures are NOT
caught during ingestion — the first error aborts the entire run at that
point: the error propagates, no batch is recorded as written by the
aborted call, and none of the remaining entities is processed (the result
does not depend on them). -/
theorem ingestion_error_aborts_run {E : Type}
    (build : Paper → Except E (List Item))
    (put : List Item → Except E Unit) (p : Paper) (ps : List Paper)
    (batch : List Item) :
    (∀ e, build p = .error e →
      mainLoop build put (p :: ps) batch = ([], some e)) ∧
    (∀ e items, build p = .ok items → 24 ≤ (batch ++ items).length →
      put (batch ++ items) = .error e →
      mainLoop build put (p :: ps) batch = ([], some e)) := by
  constructor
  · intro e h
    simp [mainLoop, h]
  · intro e items hb hlen hput
    simp only [mainLoop, hb]
    rw [if_pos hlen, hput]

/-! ## C1 — `get_paper_by_id` after ingestion -/

/-- The stored items under one main-table key. -/
def byKey (K : Str × Str) (l : List Item) : List Item :=
  l.filter (fun it => decide (itemKey it = K))

/-- Anything in the store after a sequence of puts was either there before
or among the put items. -/
theorem putAll_mem : ∀ (items store : List Item) (it : Item),
    it ∈ putAll store items → it ∈ store ∨ it ∈ items := by
  intro items
  induction items with
  | nil =>
    intro store it h
    exact Or.inl h
  | cons a rest ih =>
    intro store it h
    rcases ih (putItem store a) it h with h' | h'
    · unfold putItem at h'
      rcases List.mem_append.mp h' with h'' | h''
      · exact Or.inl (List.mem_filter.mp h'').1
      · exact Or.inr (List.mem_cons.mpr (Or.inl (List.mem_singleton.mp h'')))
    · exact Or.inr (List.mem_cons_of_mem a h')

/-- After a sequence of overwrite-by-key puts, the store holds, under key
`K`, exactly the last put item with that key — or whatever the initial
store held under `K` when no put item carries it. -/
theorem byKey_putAll (K : Str × Str) : ∀ (items store : List Item),
    byKey K (putAll store items) =
      match (byKey K items).getLast? with
      | some it => [it]
      | none => byKey K store := by
  intro items
  induction items with
  | nil =>
    intro store
    rfl
  | cons a rest ih =>
    intro store
    rw [show putAll store (a :: rest) = putAll (putItem store a) rest from rfl,
      ih (putItem store a)]
    by_cases hK : itemKey a = K
    · have hcons : byKey K (a :: rest) = a :: byKey K rest := by
        simp [byKey, List.filter_cons, hK]
      rw [hcons, List.getLast?_cons]
      cases hr : (byKey K rest).getLast? with
      | some it => simp [hr]
      | none =>
        have hnil : byKey K rest = [] := List.getLast?_eq_none.mp hr
        simp only [hr, Option.getD_none]
        unfold putItem byKey
        rw [List.filter_append]
        have h1 : List.filter (fun it => decide (itemKey it = K))
            (store.filter (fun s => !(sameKey s a))) = [] := by
          rw [List.filter_filter, List.filter_eq_nil]
          intro s _
          simp only [Bool.and_eq_true, decide_eq_true_iff, Bool.not_eq_true',
            not_and]
          intro hsK
          have hsa : sameKey s a = true :=
            (sameKey_eq_true_iff s a).mpr (hsK.trans hK.symm)
          simp [hsa]
        rw [h1]
        simp [hK]
    · have hcons : byKey K (a :: rest) = byKey K rest := by
        simp [byKey, List.filter_cons, hK]
      rw [hcons]
      cases hr : (byKey K rest).getLast? with
      | some it => rfl
      | none =>
        have hput : byKey K (putItem store a) = byKey K store := by
          unfold putItem byKey
          rw [List.filter_append, List.filter_filter]
          have h2 : List.filter (fun it => decide (itemKey it = K)) [a] = [] := by
            simp [hK]
          rw [h2, List.append_nil]
          apply List.filter_congr
          intro s _
          by_cases hsK : itemKey s = K
          · have hsa : sameKey s a = false := by
              cases h : sameKey s a
              · rfl
              · exact absurd (((sameKey_eq_true_iff s a).mp h).symm.trans hsK) hK
            simp [hsK, hsa]
          · simp [hsK]
        rw [hput]

/-- `byKey` distributes over append. -/
theorem byKey_append (K : Str × Str) (l₁ l₂ : List Item) :
    byKey K (l₁ ++ l₂) = byKey K l₁ ++ byKey K l₂ :=
  List.filter_append l₁ l₂

/-- Lists with different head characters differ, whatever is appended. -/
theorem cons_append_ne {a b : Char} (la lb x y : Str) (h : a ≠ b) :
    (a :: la) ++ x ≠ (b :: lb) ++ y := by
  simp only [List.cons_append, ne_eq, List.cons.injEq, not_and]
  intro hab
  exact absurd hab h

/-- Among the items one paper emits, only the canonical item carries a
`PaperIdIndex` key, and no other item's partition key is of the
`PAPER#...` form. -/
theorem build_item_shape (parse : Str → Option Str) (p : Paper) (it : Item)
    (h : it ∈ (build_items_for_paper parse p).1) :
    it = paper_item parse p ∨
      (it.GSI2PK = none ∧ ∀ s : Str, it.PK ≠ "PAPER#".data ++ s) := by
  have hCATEGORY : "CATEGORY#".data = 'C' :: "ATEGORY#".data := rfl
  have hPAPER : "PAPER#".data = 'P' :: "APER#".data := rfl
  have hAUTHOR : "AUTHOR#".data = 'A' :: "UTHOR#".data := rfl
  have hKEYWORD : "KEYWORD#".data = 'K' :: "EYWORD#".data := rfl
  simp only [build_items_for_paper, List.mem_append, List.mem_map,
    List.mem_singleton] at h
  rcases h with ((⟨c, _, rfl⟩ | rfl) | ⟨a, _, rfl⟩) | ⟨k, _, rfl⟩
  · refine Or.inr ⟨rfl, fun s hPK => ?_⟩
    have h2 : "CATEGORY#".data ++ c = "PAPER#".data ++ s := hPK
    rw [hCATEGORY, hPAPER] at h2
    exact cons_append_ne _ _ _ _ (by decide) h2
  · exact Or.inl rfl
  · refine Or.inr ⟨rfl, fun s hPK => ?_⟩
    have h2 : "AUTHOR#".data ++ a = "PAPER#".data ++ s := hPK
    rw [hAUTHOR, hPAPER] at h2
    exact cons_append_ne _ _ _ _ (by decide) h2
  · refine Or.inr ⟨rfl, fun s hPK => ?_⟩
    have h2 : "KEYWORD#".data ++ k = "PAPER#".data ++ s := hPK
    rw [hKEYWORD, hPAPER] at h2
    exact cons_append_ne _ _ _ _ (by decide) h2

/-- The items one paper emits, restricted to the canonical key
`PAPER#i / A`: the paper's canonical item when its rendered id is `i`,
nothing otherwise. -/
theorem byKey_build (parse : Str → Option Str) (p : Paper) (i : Str) :
    byKey ("PAPER#".data ++ i, "A".data) (build_items_for_paper parse p).1 =
      if pyStr p.arxiv_id = i then [paper_item parse p] else [] := by
  have hCATEGORY : "CATEGORY#".data = 'C' :: "ATEGORY#".data := rfl
  have hPAPER : "PAPER#".data = 'P' :: "APER#".data := rfl
  have hAUTHOR : "AUTHOR#".data = 'A' :: "UTHOR#".data := rfl
  have hKEYWORD : "KEYWORD#".data = 'K' :: "EYWORD#".data := rfl
  unfold build_items_for_paper byKey
  rw [List.filter_append, List.filter_append, List.filter_append]
  have hcat : List.filter
      (fun it => decide (itemKey it = ("PAPER#".data ++ i, "A".data)))
      ((p.categories.getD []).map (category_item parse p)) = [] := by
    rw [List.filter_eq_nil]
    intro it hit
    obtain ⟨c, _, rfl⟩ := List.mem_map.mp hit
    simp only [decide_eq_true_iff]
    intro hK
    have hPK : "CATEGORY#".data ++ c = "PAPER#".data ++ i :=
      congrArg Prod.fst hK
    rw [hCATEGORY, hPAPER] at hPK
    exact cons_append_ne _ _ _ _ (by decide) hPK
  have hauth : List.filter
      (fun it => decide (itemKey it = ("PAPER#".data ++ i, "A".data)))
      ((p.authors.getD []).map (author_item parse p)) = [] := by
    rw [List.filter_eq_nil]
    intro it hit
    obtain ⟨a, _, rfl⟩ := List.mem_map.mp hit
    simp only [decide_eq_true_iff]
    intro hK
    have hPK : "AUTHOR#".data ++ a = "PAPER#".data ++ i :=
      congrArg Prod.fst hK
    rw [hAUTHOR, hPAPER] at hPK
    exact cons_append_ne _ _ _ _ (by decide) hPK
  have hkw : List.filter
      (fun it => decide (itemKey it = ("PAPER#".data ++ i, "A".data)))
      ((base_attrs parse p).keywords.map (keyword_item parse p)) = [] := by
    rw [List.filter_eq_nil]
    intro it hit
    obtain ⟨k, _, rfl⟩ := List.mem_map.mp hit
    simp only [decide_eq_true_iff]
    intro hK
    have hPK : "KEYWORD#".data ++ k = "PAPER#".data ++ i :=
      congrArg Prod.fst hK
    rw [hKEYWORD, hPAPER] at hPK
    exact cons_append_ne _ _ _ _ (by decide) hPK
  rw [hcat, hauth, hkw]
  by_cases hpi : pyStr p.arxiv_id = i
  · rw [if_pos hpi]
    have hdec : decide
        (itemKey (paper_item parse p) = ("PAPER#".data ++ i, "A".data)) = true := by
      rw [decide_eq_true_iff]
      simp [itemKey, paper_item, hpi]
    simp only [List.filter_cons, hdec, if_true, List.filter_nil]
    simp
  · rw [if_neg hpi]
    have hdec : decide
        (itemKey (paper_item parse p) = ("PAPER#".data ++ i, "A".data)) = false := by
      rw [decide_eq_false_iff_not]
      intro hK
      exact hpi (List.append_cancel_left (congrArg Prod.fst hK))
    simp only [List.filter_cons, hdec, List.filter_nil]
    simp

/-- No paper with a different rendered id contributes an item under
`PAPER#i / A`. -/
theorem byKey_flatten_none (parse : Str → Option Str) (i : Str) :
    ∀ ps : List Paper, (∀ p ∈ ps, pyStr p.arxiv_id ≠ i) →
      byKey ("PAPER#".data ++ i, "A".data)
        ((ps.map (fun p => (build_items_for_paper parse p).1)).flatten) = [] := by
  intro ps
  induction ps with
  | nil => intro _; rfl
  | cons p ps' ih =>
    intro h
    simp only [List.map_cons, List.flatten_cons]
    rw [byKey_append, byKey_build, if_neg (h p (List.mem_cons_self p ps')),
      ih (fun q hq => h q (List.mem_cons_of_mem p hq))]
    rfl

/-- With pairwise-distinct rendered ids, the flattened emission of a paper
list holds exactly one item under `E`'s canonical key: `E`'s canonical
item. -/
theorem byKey_flatten_found (parse : Str → Option Str) (i : Str) :
    ∀ (ps : List Paper) (E : Paper), E ∈ ps → pyStr E.arxiv_id = i →
      (ps.map (fun p => pyStr p.arxiv_id)).Nodup →
      byKey ("PAPER#".data ++ i, "A".data)
        ((ps.map (fun p => (build_items_for_paper parse p).1)).flatten) =
        [paper_item parse E] := by
  intro ps
  induction ps with
  | nil =>
    intro E hE
    exact absurd hE (List.not_mem_nil E)
  | cons p ps' ih =>
    intro E hE hEi hnd
    simp only [List.map_cons, List.nodup_cons] at hnd
    simp only [List.map_cons, List.flatten_cons]
    rw [byKey_append]
    rcases List.mem_cons.mp hE with rfl | hE'
    · rw [byKey_build, if_pos hEi, byKey_flatten_none parse i ps' ?hne]
      · simp
      case hne =>
        intro q hq hqi
        refine hnd.1 ?_
        rw [hEi, ← hqi]
        exact List.mem_map_of_mem _ hq
    · have hpi : pyStr p.arxiv_id ≠ i := by
        intro hp
        refine hnd.1 ?_
        rw [hp, ← hEi]
        exact List.mem_map_of_mem _ hE'
      rw [byKey_build, if_neg hpi, ih E hE' hEi hnd.2]
      rfl

/-- C1: after ingesting papers with pairwise-distinct rendered ids,
`get_paper_by_id` on the id of an ingested paper `E` returns exactly one
item — `E`'s canonical projection, whose payload is `E`'s normalized
attribute set — with `count = 1`; and on any store and any id the
operation reports at most one result, however many rows the index holds. -/
theorem get_by_id_exactly_one (parse : Str → Option Str) (ps : List Paper)
    (E : Paper) (i : Str) (hmem : E ∈ ps) (hid : E.arxiv_id = some i)
    (hnd : (ps.map (fun p => pyStr p.arxiv_id)).Nodup) :
    get_paper_by_id (ingest parse ps) i = (some (paper_item parse E), 1) ∧
    (paper_item parse E).payload = base_attrs parse E ∧
    ∀ (store : List Item) (j : Str), (get_paper_by_id store j).2 ≤ 1 := by
  have hEi : pyStr E.arxiv_id = i := by rw [hid]; rfl
  have hfilter : (ingest parse ps).filter
      (fun it => it.GSI2PK == some ("PAPER#".data ++ i)) =
      byKey ("PAPER#".data ++ i, "A".data) (ingest parse ps) := by
    unfold byKey
    apply List.filter_congr
    intro it hit
    have hit' : it ∈ putAll []
        ((ps.map (fun p => (build_items_for_paper parse p).1)).flatten) := hit
    have hsrc : it ∈
        (ps.map (fun p => (build_items_for_paper parse p).1)).flatten := by
      rcases putAll_mem _ [] it hit' with h | h
      · exact absurd h (List.not_mem_nil it)
      · exact h
    obtain ⟨l, hl, hitl⟩ := List.mem_flatten.mp hsrc
    obtain ⟨p, _, rfl⟩ := List.mem_map.mp hl
    rcases build_item_shape parse p it hitl with rfl | ⟨hg, hpk⟩
    · by_cases hpi : pyStr p.arxiv_id = i
      · have h1 : (paper_item parse p).GSI2PK =
            some ("PAPER#".data ++ i) := by
          simp [paper_item, hpi]
        have h2 : itemKey (paper_item parse p) =
            ("PAPER#".data ++ i, "A".data) := by
          simp [itemKey, paper_item, hpi]
        simp [h1, h2]
      · have hne : ¬("PAPER#".data ++ pyStr p.arxiv_id =
            "PAPER#".data ++ i) :=
          fun hcontra => hpi (List.append_cancel_left hcontra)
        have h2 : ¬(itemKey (paper_item parse p) =
            ("PAPER#".data ++ i, "A".data)) := by
          intro hK
          exact hne (congrArg Prod.fst hK)
        have hpi' : ¬(pyStr p.arxiv_id = i) := hpi
        have hb : (pyStr p.arxiv_id == i) = false := by
          rw [beq_eq_false_iff_ne]
          exact hpi'
        have hd : decide (pyStr p.arxiv_id = i) = false := by
          rw [decide_eq_false_iff_not]
          exact hpi'
        simp only [paper_item, itemKey] at h2 ⊢
        simp [hne, h2, hb, hd]
    · have h2 : ¬(itemKey it = ("PAPER#".data ++ i, "A".data)) := by
        intro hK
        exact hpk i (congrArg Prod.fst hK)
      have hgb : (it.GSI2PK == some ("PAPER#".data ++ i)) = false := by
        rw [hg]
        rfl
      have hdb : decide (itemKey it = ("PAPER#".data ++ i, "A".data)) = false := by
        rw [decide_eq_false_iff_not]
        exact h2
      rw [hgb, hdb]
  refine ⟨?_, rfl, ?_⟩
  · unfold get_paper_by_id
    rw [hfilter]
    have : byKey ("PAPER#".data ++ i, "A".data) (ingest parse ps) =
        [paper_item parse E] := by
      unfold ingest
      rw [byKey_putAll, byKey_flatten_found parse i ps E hmem hEi hnd]
      rfl
    rw [this]
    rfl
  · intro store j
    have hcount : ∀ o : Option Item,
        (match o with
          | some it => (some it, 1)
          | none => ((none : Option Item), 0)).2 ≤ 1 := by
      intro o
      cases o <;> simp
    exact hcount ((store.filter
      (fun it => it.GSI2PK == some ("PAPER#".data ++ j))).head?)

/-- C1 at a concrete input: a one-paper ingest, looked up by its id. -/
theorem get_by_id_exactly_one_witness :
    pg1 ∈ [pg1] ∧ pg1.arxiv_id = some "g1".data ∧
    get_paper_by_id (ingest (fun _ => none) [pg1]) "g1".data =
      (some (paper_item (fun _ => none) pg1), 1) :=
  ⟨List.mem_singleton.mpr rfl, rfl,
    (get_by_id_exactly_one (fun _ => none) [pg1] pg1 "g1".data
      (List.mem_singleton.mpr rfl) rfl (by decide)).1⟩

/-! ## C5 — term extractor output -/

/-- A word surviving `dedupFirstGo` was not among the already-seen keys. -/
theorem dedupFirstGo_avoid : ∀ (l seen : List Str) (x : Str),
    x ∈ dedupFirstGo seen l → seen.contains x = false := by
  intro l
  induction l with
  | nil =>
    intro seen x h
    exact absurd h (List.not_mem_nil x)
  | cons w ws ih =>
    intro seen x h
    unfold dedupFirstGo at h
    split at h
    · exact ih seen x h
    · rename_i hw
      rcases List.mem_cons.mp h with rfl | h'
      · exact Bool.eq_false_iff.mpr hw
      · have h2 := ih (w :: seen) x h'
        rw [List.contains_cons] at h2
        exact (Bool.or_eq_false_iff.mp h2).2

/-- `dedupFirstGo` only keeps words of its input. -/
theorem dedupFirstGo_subset : ∀ (l seen : List Str) (x : Str),
    x ∈ dedupFirstGo seen l → x ∈ l := by
  intro l
  induction l with
  | nil =>
    intro seen x h
    exact absurd h (List.not_mem_nil x)
  | cons w ws ih =>
    intro seen x h
    unfold dedupFirstGo at h
    split at h
    · exact List.mem_cons_of_mem w (ih seen x h)
    · rcases List.mem_cons.mp h with rfl | h'
      · exact List.mem_cons_self x ws
      · exact List.mem_cons_of_mem w (ih (w :: seen) x h')

/-- The deduplicated key list has no duplicates. -/
theorem dedupFirstGo_nodup : ∀ (l seen : List Str),
    (dedupFirstGo seen l).Nodup := by
  intro l
  induction l with
  | nil =>
    intro seen
    exact List.nodup_nil
  | cons w ws ih =>
    intro seen
    unfold dedupFirstGo
    split
    · exact ih seen
    · rw [List.nodup_cons]
      refine ⟨fun hmem => ?_, ih (w :: seen)⟩
      have h2 := dedupFirstGo_avoid ws (w :: seen) w hmem
      rw [List.contains_cons] at h2
      simp at h2

/-- `most_common`'s key order is total. -/
theorem keyLe_total (ws : List Str) (a b : Nat × Str) :
    keyLe ws a b = true ∨ keyLe ws b a = true := by
  simp only [keyLe, Bool.or_eq_true, Bool.and_eq_true, decide_eq_true_iff,
    beq_iff_eq]
  omega

/-- `most_common`'s key order is transitive. -/
theorem keyLe_trans (ws : List Str) (a b c : Nat × Str)
    (h1 : keyLe ws a b = true) (h2 : keyLe ws b c = true) :
    keyLe ws a c = true := by
  simp only [keyLe, Bool.or_eq_true, Bool.and_eq_true, decide_eq_true_iff,
    beq_iff_eq] at h1 h2 ⊢
  omega

/-- The first-occurrence rank of a word in a key list (the position
`Counter` key order assigns to it). -/
def idxOfStr (w : Str) : List Str → Nat
  | [] => 0
  | v :: vs => if v = w then 0 else idxOfStr w vs + 1

/-- On a duplicate-free list, the rank of the `i`-th element is `i`. -/
theorem idxOfStr_getElem : ∀ (l : List Str), l.Nodup →
    ∀ (i : Nat) (h : i < l.length), idxOfStr l[i] l = i := by
  intro l
  induction l with
  | nil =>
    intro _ i h
    simp at h
  | cons a as ih =>
    intro hnd i h
    cases i with
    | zero => simp [idxOfStr]
    | succ n =>
      have hn : n < as.length := by
        simp only [List.length_cons] at h
        omega
      have hne : a ≠ as[n] := by
        intro he
        exact (List.nodup_cons.mp hnd).1 (he ▸ List.getElem_mem hn)
      rw [List.getElem_cons_succ]
      simp only [idxOfStr, if_neg hne]
      rw [ih (List.nodup_cons.mp hnd).2 n hn]

/-- On a duplicate-free list, an `enum` pair's index is the rank of its
word. -/
theorem enum_fst_eq_idxOf (l : List Str) (hnd : l.Nodup) (pr : Nat × Str)
    (h : pr ∈ l.enum) : idxOfStr pr.2 l = pr.1 := by
  rw [List.mem_enum_iff_getElem?] at h
  obtain ⟨hlt, hget⟩ := List.getElem?_eq_some_iff.mp h
  rw [← hget]
  exact idxOfStr_getElem l hnd pr.1 hlt

/-- A valid code point round-trips through `Char.ofNat`. -/
theorem char_ofNat_toNat (n : Nat) (h : n.isValidChar) :
    (Char.ofNat n).toNat = n := by
  unfold Char.ofNat
  rw [dif_pos h]
  rfl

/-- `isUpper` through the numeric code point. -/
theorem isUpper_iff_toNat (c : Char) :
    c.isUpper = true ↔ 65 ≤ c.toNat ∧ c.toNat ≤ 90 := by
  simp only [Char.isUpper, Bool.and_eq_true, decide_eq_true_iff]
  constructor
  · rintro ⟨h1, h2⟩
    rw [ge_iff_le, UInt32.le_def, BitVec.le_def] at h1
    rw [UInt32.le_def, BitVec.le_def] at h2
    exact ⟨h1, h2⟩
  · rintro ⟨h1, h2⟩
    constructor
    · rw [ge_iff_le, UInt32.le_def, BitVec.le_def]
      exact h1
    · rw [UInt32.le_def, BitVec.le_def]
      exact h2

/-- `str.lower()` never leaves an ASCII uppercase letter. -/
theorem isUpper_toLower (c : Char) : (c.toLower).isUpper = false := by
  show (if c.toNat ≥ 65 ∧ c.toNat ≤ 90 then Char.ofNat (c.toNat + 32)
    else c).isUpper = false
  split
  · rename_i h
    have hv : (c.toNat + 32).isValidChar := Or.inl (by omega)
    have ht : (Char.ofNat (c.toNat + 32)).toNat = c.toNat + 32 :=
      char_ofNat_toNat _ hv
    cases hu : (Char.ofNat (c.toNat + 32)).isUpper
    · rfl
    · exfalso
      have h2 := (isUpper_iff_toNat _).mp hu
      rw [ht] at h2
      omega
  · rename_i h
    cases hu : c.isUpper
    · rfl
    · exfalso
      have h2 := (isUpper_iff_toNat _).mp hu
      exact h ⟨h2.1, h2.2⟩

/-- C5: on any text the term extractor returns at most 10 distinct tokens,
each at least 3 characters long, outside the stop-word set and free of
ASCII uppercase letters (lowercased), ordered by strictly descending
frequency with ties broken by first-occurrence order (the index in the
first-occurrence key list); it is a pure function (hence deterministic on
identical text), and empty text yields the empty list. -/
theorem tokenize_top10_ranked (text : Str) :
    (tokenize_keywords text 10).length ≤ 10 ∧
    (tokenize_keywords text 10).Nodup ∧
    (∀ w ∈ tokenize_keywords text 10,
      3 ≤ w.length ∧ STOPWORDS.contains w = false ∧
      ∀ c ∈ w, c.isUpper = false) ∧
    List.Pairwise (fun a b =>
      (filteredWords text).count b < (filteredWords text).count a ∨
      ((filteredWords text).count a = (filteredWords text).count b ∧
        idxOfStr a (dedupFirst (filteredWords text)) ≤
          idxOfStr b (dedupFirst (filteredWords text))))
      (tokenize_keywords text 10) ∧
    (text = [] → tokenize_keywords text 10 = []) := by
  by_cases hempty : text = []
  · subst hempty
    refine ⟨?_, ?_, ?_, ?_, fun _ => rfl⟩ <;> simp [tokenize_keywords]
  · have htok : tokenize_keywords text 10 =
        ((((dedupFirst (filteredWords text)).enum.insertionSort
          (fun a b => keyLe (filteredWords text) a b = true)).map
          Prod.snd).take 10) := by
      simp [tokenize_keywords, hempty, most_common]
    set fw := filteredWords text with hfw
    set dd := dedupFirst fw with hdd
    set sorted := dd.enum.insertionSort
      (fun a b => keyLe fw a b = true) with hsorted_def
    have hperm : sorted.Perm dd.enum :=
      List.perm_insertionSort (fun a b => keyLe fw a b = true) dd.enum
    have hmapperm : (sorted.map Prod.snd).Perm dd :=
      (hperm.map Prod.snd).trans (by rw [List.enum_map_snd])
    have hddnodup : dd.Nodup := dedupFirstGo_nodup fw []
    have hsub : (tokenize_keywords text 10).Sublist (sorted.map Prod.snd) := by
      rw [htok]
      exact List.take_sublist _ _
    refine ⟨?_, ?_, ?_, ?_, fun h => absurd h hempty⟩
    · rw [htok]
      exact List.length_take_le _ _
    · exact hsub.nodup (hmapperm.nodup_iff.mpr hddnodup)
    · intro w hw
      have hw1 : w ∈ sorted.map Prod.snd := hsub.subset hw
      have hw2 : w ∈ dd := hmapperm.mem_iff.mp hw1
      have hw3 : w ∈ fw := dedupFirstGo_subset fw [] w hw2
      rw [hfw] at hw3
      unfold filteredWords at hw3
      rw [List.mem_filter] at hw3
      obtain ⟨hwmap, hpred⟩ := hw3
      simp only [Bool.and_eq_true, Bool.not_eq_true', decide_eq_true_iff]
        at hpred
      refine ⟨hpred.2, hpred.1, ?_⟩
      obtain ⟨v, _, rfl⟩ := List.mem_map.mp hwmap
      intro cc hcc
      obtain ⟨c0, _, rfl⟩ := List.mem_map.mp hcc
      exact isUpper_toLower c0
    · have hpair : sorted.Pairwise (fun a b => keyLe fw a b = true) := by
        haveI : IsTotal (Nat × Str) (fun a b => keyLe fw a b = true) :=
          ⟨keyLe_total fw⟩
        haveI : IsTrans (Nat × Str) (fun a b => keyLe fw a b = true) :=
          ⟨keyLe_trans fw⟩
        exact List.sorted_insertionSort _ dd.enum
      have hmem_fst : ∀ pr ∈ sorted, idxOfStr pr.2 dd = pr.1 := by
        intro pr hpr
        exact enum_fst_eq_idxOf dd hddnodup pr (hperm.mem_iff.mp hpr)
      have hpair2 : sorted.Pairwise (fun a b =>
          fw.count b.2 < fw.count a.2 ∨
          (fw.count a.2 = fw.count b.2 ∧
            idxOfStr a.2 dd ≤ idxOfStr b.2 dd)) := by
        refine List.Pairwise.imp_of_mem ?_ hpair
        intro a b ha hb hab
        simp only [keyLe, Bool.or_eq_true, Bool.and_eq_true,
          decide_eq_true_iff, beq_iff_eq] at hab
        rcases hab with h | ⟨hcnt, hidx⟩
        · exact Or.inl h
        · refine Or.inr ⟨hcnt, ?_⟩
          rw [hmem_fst a ha, hmem_fst b hb]
          exact hidx
      have hpair3 : (sorted.map Prod.snd).Pairwise (fun a b =>
          fw.count b < fw.count a ∨
          (fw.count a = fw.count b ∧ idxOfStr a dd ≤ idxOfStr b dd)) :=
        List.pairwise_map.mpr hpair2
      exact List.Pairwise.sublist hsub hpair3
